import Mathlib

/- Verification of the GeeCache core: a shallow embedding of the byte-bounded
LRU engine (package lru), the immutable ByteView and the peer-aware group
coordinator (package geecache), the consistent-hash ring (package
consistenthash) and the peer server dispatch (HTTPPool.ServeHTTP), together
with proofs about the specified behaviour.  Go byte slices are modelled as
lists of naturals, Go (value, error) returns as pairs with an optional error
message, and the one possible non-termination (the eviction loop of Cache.Add
on a cache whose maxBytes is negative) as an Option result where none stands
for divergence. -/

namespace lru

/-- Go `lru.Cache`: `maxBytes` and `nowBytes` are int64, modelled as unbounded
Int (no realistic entry weights overflow), and `ll` is the doubly linked
recency list, front = most recently used.  The Go index `cache
map[string]*list.Element` maps each key to its node; in this embedding a key
is looked up by scanning `ll`, which agrees with the map on every state the
public operations produce.  The optional `OnEvicted` callback only observes
evictions and never affects the cache state, so it is not modelled.  The
stored values are abstract: any type `V` with a byte-length function `vLen`
(Go's `Value` interface with its `Len() int` method). -/
structure Cache (V : Type) where
  maxBytes : Int
  nowBytes : Int
  ll : List (String × V)
deriving DecidableEq

/-- Byte weight of one entry: `len(key) + value.Len()` (Go `len` of a string
counts UTF-8 bytes, as does `String.utf8ByteSize`). -/
def weight {V : Type} (vLen : V → Nat) (e : String × V) : Int :=
  (e.1.utf8ByteSize : Int) + (vLen e.2 : Int)

/-- Sum of the weights of a list of entries. -/
def sumW {V : Type} (vLen : V → Nat) (l : List (String × V)) : Int :=
  (l.map (weight vLen)).sum

/-- Go `lru.New`: a fresh cache with the given byte ceiling. -/
def New (V : Type) (maxBytes : Int) : Cache V :=
  { maxBytes := maxBytes, nowBytes := 0, ll := [] }

/-- Go `Cache.Get`: on a hit, move the node to the front of `ll` and return
its value; on a miss, return nothing and leave the cache unchanged. -/
def Cache.Get {V : Type} (c : Cache V) (key : String) : Option V × Cache V :=
  match c.ll.find? (fun x => x.1 == key) with
  | some e => (some e.2, { c with ll := e :: c.ll.eraseP (fun x => x.1 == key) })
  | none => (none, c)

/-- Go `Cache.RemoveOldest`: detach the back node of `ll` (if any), drop its
key from the index and subtract its weight from `nowBytes`. -/
def Cache.RemoveOldest {V : Type} (vLen : V → Nat) (c : Cache V) : Cache V :=
  match c.ll.getLast? with
  | none => c
  | some e => { c with ll := c.ll.dropLast, nowBytes := c.nowBytes - weight vLen e }

/-- The eviction loop of Go `Cache.Add`:
`for c.maxBytes != 0 && c.maxBytes < c.nowBytes { c.RemoveOldest() }`.
Each iteration on a non-empty list shortens `ll` by one; on an empty list
`RemoveOldest` is a no-op, so the Go loop either exits or spins forever.
Running with `fuel = c.ll.length` exhausts the fuel exactly in the
forever-spin case, which the embedding reports as `none` (divergence). -/
def evictFuel {V : Type} (vLen : V → Nat) : Nat → Cache V → Option (Cache V)
  | 0, c => if c.maxBytes ≠ 0 ∧ c.maxBytes < c.nowBytes then none else some c
  | n + 1, c =>
    if c.maxBytes ≠ 0 ∧ c.maxBytes < c.nowBytes then
      evictFuel vLen n (Cache.RemoveOldest vLen c)
    else some c

/-- The eviction loop, entered with enough fuel to cover every terminating
run. -/
def evictLoop {V : Type} (vLen : V → Nat) (c : Cache V) : Option (Cache V) :=
  evictFuel vLen c.ll.length c

/-- Go `Cache.Add`: on a present key, move its node to the front, add the
value-length difference to `nowBytes` and store the new value in place; on an
absent key, push a new front node and add its weight; then run the eviction
loop.  `none` models the loop never exiting. -/
def Cache.Add {V : Type} (vLen : V → Nat) (c : Cache V) (key : String) (value : V) :
    Option (Cache V) :=
  match c.ll.find? (fun x => x.1 == key) with
  | some e =>
    evictLoop vLen { c with
      ll := (e.1, value) :: c.ll.eraseP (fun x => x.1 == key),
      nowBytes := c.nowBytes + ((vLen value : Int) - (vLen e.2 : Int)) }
  | none =>
    evictLoop vLen { c with
      ll := (key, value) :: c.ll,
      nowBytes := c.nowBytes + weight vLen (key, value) }

/-- Go `Cache.Len`: number of resident entries. -/
def Cache.Len {V : Type} (c : Cache V) : Nat := c.ll.length

/-- A public operation on the LRU engine, for stating trace invariants. -/
inductive Op (V : Type) where
  | get (key : String)
  | add (key : String) (value : V)

/-- Run a sequence of public operations from a state; `none` as soon as one
`Add` diverges. -/
def runOps {V : Type} (vLen : V → Nat) : Cache V → List (Op V) → Option (Cache V)
  | c, [] => some c
  | c, Op.get k :: ops => runOps vLen (Cache.Get c k).2 ops
  | c, Op.add k v :: ops =>
    match Cache.Add vLen c k v with
    | some c2 => runOps vLen c2 ops
    | none => none

/-- Written from the words of claim C2: the eviction loop as the claim states
it, evicting the tail while `max_bytes > 0` and `now_bytes > max_bytes`.  The
source loop instead tests `max_bytes != 0`, which differs on negative
`max_bytes`. -/
def evictFuelSpec {V : Type} (vLen : V → Nat) : Nat → Cache V → Option (Cache V)
  | 0, c => if 0 < c.maxBytes ∧ c.maxBytes < c.nowBytes then none else some c
  | n + 1, c =>
    if 0 < c.maxBytes ∧ c.maxBytes < c.nowBytes then
      evictFuelSpec vLen n (Cache.RemoveOldest vLen c)
    else some c

/-- Written from the words of claim C2: with the key present, replace the
stored value in place, move the entry to the front and change `now_bytes` by
new length minus old length; with the key absent, insert a new front node and
increase `now_bytes` by `len(key) + value.Len()`; then repeatedly evict the
tail while `max_bytes > 0` and `now_bytes > max_bytes`. -/
def Cache.AddSpec {V : Type} (vLen : V → Nat) (c : Cache V) (key : String) (value : V) :
    Option (Cache V) :=
  match c.ll.find? (fun x => x.1 == key) with
  | some e =>
    let mid : Cache V := { c with
      ll := (e.1, value) :: c.ll.eraseP (fun x => x.1 == key),
      nowBytes := c.nowBytes + ((vLen value : Int) - (vLen e.2 : Int)) }
    evictFuelSpec vLen mid.ll.length mid
  | none =>
    let mid : Cache V := { c with
      ll := (key, value) :: c.ll,
      nowBytes := c.nowBytes + weight vLen (key, value) }
    evictFuelSpec vLen mid.ll.length mid

end lru

namespace geecache

/-- Go `ByteView`: an immutable byte sequence; bytes are modelled as
naturals. -/
structure ByteView where
  b : List Nat
deriving DecidableEq

/-- Go `ByteView.Len`: the number of bytes. -/
def ByteView.Len (v : ByteView) : Nat := v.b.length

/-- Go `cloneBytes`: a defensive copy; a copy of an immutable value is
indistinguishable from the original, so it is the identity here. -/
def cloneBytes (b : List Nat) : List Nat := b

/-- Go `ByteView.ByteSlice`: a copy of the bytes. -/
def ByteView.ByteSlice (v : ByteView) : List Nat := cloneBytes v.b

/-- Modelled from the spec: the Concurrent Cache Shell (file cache.go of this
repository, absent from src/).  Spec 4.B: it holds `cacheBytes` and an
optional LRU engine behind one mutex (mutual exclusion is invisible in this
sequential embedding) and constructs the engine lazily on first admission. -/
structure cache where
  cacheBytes : Int
  lru : Option (lru.Cache ByteView)

/-- Modelled from the spec: shell `get` — a miss without constructing anything
when the engine is uninitialized, otherwise delegate to the engine (a hit
promotes the entry) (spec 4.B). -/
def cache.get (c : cache) (key : String) : Option ByteView × cache :=
  match c.lru with
  | none => (none, c)
  | some eng =>
    let r := lru.Cache.Get eng key
    (r.1, { c with lru := some r.2 })

/-- Modelled from the spec: shell `add` — construct the engine with the
configured ceiling on first admission, then delegate (spec 4.B). -/
def cache.add (c : cache) (key : String) (value : ByteView) : Option cache :=
  match c.lru with
  | none =>
    (lru.Cache.Add ByteView.Len (lru.New ByteView c.cacheBytes) key value).map
      (fun eng => { c with lru := some eng })
  | some eng =>
    (lru.Cache.Add ByteView.Len eng key value).map
      (fun eng2 => { c with lru := some eng2 })

/-- Go interface `PeerClient` (http.go): fetch a (group, key) from a remote
peer; the result is Go's ([]byte, error) pair, an error modelled by its
message. -/
structure PeerClient where
  Get : String → String → List Nat × Option String

/-- Go interface `PeerPicker`: `PickPeer(key) (peer PeerClient, ok bool)`,
the boolean modelled with `Option`. -/
structure PeerPicker where
  PickPeer : String → Option PeerClient

/-- Go `Group` (the peer-aware version of geecache.go): name, loader
callback, main cache shell and the optional peer picker. -/
structure Group where
  name : String
  getter : String → List Nat × Option String
  mainCache : cache
  peers : Option PeerPicker

/-- Go `Group.populateCache`: admit a value into the shell. -/
def Group.populateCache (g : Group) (key : String) (value : ByteView) : Option Group :=
  (cache.add g.mainCache key value).map (fun mc => { g with mainCache := mc })

/-- Go `Group.getLocally`: call the loader; on a loader error return the zero
ByteView and that error with the state untouched; on success copy the bytes,
admit them under the key and return them. -/
def Group.getLocally (g : Group) (key : String) : Option (ByteView × Option String × Group) :=
  match g.getter key with
  | (_, some e) => some (⟨[]⟩, some e, g)
  | (bs, none) =>
    let value : ByteView := ⟨cloneBytes bs⟩
    (Group.populateCache g key value).map (fun g2 => (value, none, g2))

/-- Go `Group.getFromPeer`: call the peer client and wrap its body bytes in a
ByteView without copying; its error is passed back. -/
def Group.getFromPeer (g : Group) (peer : PeerClient) (key : String) :
    ByteView × Option String :=
  match peer.Get g.name key with
  | (_, some e) => (⟨[]⟩, some e)
  | (bs, none) => (⟨bs⟩, none)

/-- Go `Group.load`: with a picker installed and a remote peer selected, a
successful remote fetch is returned as is (and not admitted locally); on a
remote error, and in every other case, fall back to `getLocally`. -/
def Group.load (g : Group) (key : String) : Option (ByteView × Option String × Group) :=
  match g.peers with
  | some pp =>
    match pp.PickPeer key with
    | some peer =>
      match Group.getFromPeer g peer key with
      | (value, none) => some (value, none, g)
      | (_, some _) => Group.getLocally g key
    | none => Group.getLocally g key
  | none => Group.getLocally g key

/-- Go `Group.Get`: reject the empty key with the error "key is required";
return a local hit (which promotes the entry in the shell); otherwise load. -/
def Group.Get (g : Group) (key : String) : Option (ByteView × Option String × Group) :=
  if key = "" then some (⟨[]⟩, some "key is required", g)
  else
    match cache.get g.mainCache key with
    | (some v, mc) => some (v, none, { g with mainCache := mc })
    | (none, mc) => Group.load { g with mainCache := mc } key

end geecache

namespace consistenthash

/-- Go `consistenthash.Map`: the ring.  `hash` is the configured hash
function (Go hashes the bytes of a string to a uint32 and widens to int; the
embedding keeps an abstract `String → Nat`); `keys` is the ring of virtual
hashes; `hashMap` maps a virtual hash to the real peer name and is modelled
extensionally, a missing binding being `none`. -/
structure Map where
  hash : String → Nat
  replicas : Nat
  keys : List Nat
  hashMap : Nat → Option String

/-- Go `consistenthash.New` (when the source receives a nil function it falls
back to crc32.ChecksumIEEE; the embedding always takes the hash function
explicitly, and every claim quantifies over it). -/
def New (replicas : Nat) (fn : String → Nat) : Map :=
  { hash := fn, replicas := replicas, keys := [], hashMap := fun _ => none }

/-- Go `m.hashMap[hash] = key`: pointwise map insert. -/
def mapInsert (f : Nat → Option String) (h : Nat) (key : String) : Nat → Option String :=
  fun x => if x = h then some key else f x

/-- Go `delete(m.hashMap, hash)`: pointwise map delete. -/
def mapDelete (f : Nat → Option String) (h : Nat) : Nat → Option String :=
  fun x => if x = h then none else f x

/-- The virtual-node hashes of one real key:
`hash(strconv.Itoa(i) + key)` for `i < replicas`, in loop order. -/
def vhashes (m : Map) (key : String) : List Nat :=
  (List.range m.replicas).map (fun i => m.hash (toString i ++ key))

/-- Go `sort.Ints`: ascending in-place sort.  A sorted list of integers is
determined by its multiset, so insertion sort produces exactly the slice the
source produces. -/
def sortInts (l : List Nat) : List Nat := List.insertionSort (· ≤ ·) l

/-- Go `Map.Add`: for every real key append each of its virtual hashes to the
ring and bind it to the key in `hashMap`, then sort the ring once. -/
def Map.Add (m : Map) (ks : List String) : Map :=
  let m2 := ks.foldl (fun acc key =>
    (List.range acc.replicas).foldl (fun a i =>
      { a with
        keys := a.keys ++ [a.hash (toString i ++ key)],
        hashMap := mapInsert a.hashMap (a.hash (toString i ++ key)) key }) acc) m
  { m2 with keys := sortInts m2.keys }

/-- Go `sort.SearchInts(a, x)`: the smallest index `i` with `a[i] ≥ x`, and
`len(a)` when there is none.  This is the binary search's documented result;
every call in the source searches the ring, which the source keeps sorted. -/
def searchInts (l : List Nat) (h : Nat) : Nat := l.findIdx (fun x => h ≤ x)

/-- One iteration of Go `Map.Remove`: binary-search the position of one
virtual hash and slice it out of the ring
(`m.keys = append(m.keys[:idx], m.keys[idx+1:]...)`), then delete its
`hashMap` binding.  When the search returns `len(m.keys)` the slice
expression `m.keys[idx+1:]` panics; `none` models that panic. -/
def removeStep (m : Map) (h : Nat) : Option Map :=
  let idx := searchInts m.keys h
  if idx < m.keys.length then
    some { m with keys := m.keys.eraseIdx idx, hashMap := mapDelete m.hashMap h }
  else none

/-- The loop of Go `Map.Remove` over the virtual hashes of the removed key
(the loop recomputes each hash from fields that no iteration changes, so the
precomputed list is the same sequence the source computes). -/
def removeLoop : Map → List Nat → Option Map
  | m, [] => some m
  | m, h :: hs =>
    match removeStep m h with
    | some m2 => removeLoop m2 hs
    | none => none

/-- Go `Map.Remove`: remove every virtual hash of `key` from the ring and the
map. -/
def Map.Remove (m : Map) (key : String) : Option Map :=
  removeLoop m (vhashes m key)

/-- Go `Map.Get`: an empty ring yields the empty string; otherwise hash the
key, search for the first ring entry at least as large, index the ring modulo
its length and look the owner up (a missing `hashMap` entry reads Go's zero
value ""). -/
def Map.Get (m : Map) (key : String) : String :=
  if m.keys.length = 0 then ""
  else
    (m.hashMap (m.keys.getD (m.keys.findIdx (fun x => m.hash key ≤ x) % m.keys.length) 0)).getD ""

/-- Written from the words of claim C5: compute `h = hash_fn(key)`,
binary-search for the smallest index `i` with `ring[i] ≥ h`, wrap `i` to
`i mod len(ring)` only when no such index exists, and return
`owner_of_hash[ring[i]]`; the empty ring yields the empty string. -/
def Map.GetSpec (m : Map) (key : String) : String :=
  if m.keys = [] then ""
  else
    let found := m.keys.findIdx (fun x => m.hash key ≤ x)
    let i := if found = m.keys.length then found % m.keys.length else found
    (m.hashMap (m.keys.getD i 0)).getD ""

/-- The effect of `Add`'s inner loop on `hashMap`: bind every listed virtual
hash to the peer, in order. -/
def writeAll (f : Nat → Option String) (hs : List Nat) (key : String) : Nat → Option String :=
  hs.foldl (fun a h => mapInsert a h key) f

/-- The effect of `Remove`'s loop on `hashMap`: delete every listed virtual
hash, in order. -/
def deleteAll (f : Nat → Option String) (hs : List Nat) : Nat → Option String :=
  hs.foldl mapDelete f

end consistenthash

namespace geecache

/-- A response body: `http.Error` writes a text message, a successful lookup
writes the raw bytes. -/
inductive Body where
  | text (s : String)
  | octets (bs : List Nat)

/-- The outcome of `HTTPPool.ServeHTTP`: the panic on a path outside the base
path, divergence inside `Group.Get`, or a status and body together with the
group registry after the call. -/
inductive ServeResult where
  | panicked (msg : String)
  | diverged
  | response (status : Nat) (body : Body) (groups : List (String × Group))

/-- Go `strings.SplitN(s, "/", 2)` on the character list: `none` when `s` has
no slash (one part), otherwise the pieces before and after the first slash. -/
def splitFirstSlash : List Char → Option (List Char × List Char)
  | [] => none
  | ch :: rest =>
    if ch = '/' then some ([], rest)
    else
      match splitFirstSlash rest with
      | none => none
      | some (a, b) => some (ch :: a, b)

/-- Go `GetGroup`: look a name up in the process-wide registry, modelled as an
explicit association list. -/
def GetGroup (groups : List (String × Group)) (name : String) : Option Group :=
  (groups.find? (fun p => p.1 == name)).map (fun p => p.2)

/-- Store back the group that `ServeHTTP` mutated through its registry
pointer. -/
def putGroup (groups : List (String × Group)) (name : String) (g : Group) :
    List (String × Group) :=
  groups.map (fun p => if p.1 = name then (p.1, g) else p)

/-- Go `HTTPPool.ServeHTTP`: panic unless the path starts with the base path;
split the remainder on the first slash — fewer than two parts is a 400 "bad
request"; an unknown group is a 404 with body "no such group: <name>"; then
dispatch to `Group.Get`, a 500 carrying the error message or a 200 carrying a
copy of the bytes.  Paths are handled as their character lists (Go slices the
URL string's bytes; on ASCII paths the two coincide). -/
def ServeHTTP (groups : List (String × Group)) (basePath path : String) : ServeResult :=
  if basePath.data.isPrefixOf path.data then
    match splitFirstSlash (path.data.drop basePath.data.length) with
    | none => ServeResult.response 400 (Body.text "bad request") groups
    | some (gname, k) =>
      match GetGroup groups (String.mk gname) with
      | none =>
        ServeResult.response 404 (Body.text ("no such group: " ++ String.mk gname)) groups
      | some group =>
        match Group.Get group (String.mk k) with
        | none => ServeResult.diverged
        | some (_, some e, g2) =>
          ServeResult.response 500 (Body.text e) (putGroup groups (String.mk gname) g2)
        | some (v, none, g2) =>
          ServeResult.response 200 (Body.octets (ByteView.ByteSlice v))
            (putGroup groups (String.mk gname) g2)
  else ServeResult.panicked ("HTTPPool serving unexpected path: " ++ path)

end geecache

namespace lru

theorem sumW_cons {V : Type} (vLen : V → Nat) (e : String × V) (l : List (String × V)) :
    sumW vLen (e :: l) = weight vLen e + sumW vLen l := by
  simp [sumW]

theorem sumW_append {V : Type} (vLen : V → Nat) (l1 l2 : List (String × V)) :
    sumW vLen (l1 ++ l2) = sumW vLen l1 + sumW vLen l2 := by
  simp [sumW]

theorem weight_nonneg {V : Type} (vLen : V → Nat) (e : String × V) : 0 ≤ weight vLen e := by
  unfold weight
  positivity

theorem sumW_nonneg {V : Type} (vLen : V → Nat) (l : List (String × V)) : 0 ≤ sumW vLen l := by
  unfold sumW
  apply List.sum_nonneg
  intro x hx
  obtain ⟨e, _, rfl⟩ := List.mem_map.mp hx
  exact weight_nonneg vLen e

theorem find?_key_eq {V : Type} {key : String} {l : List (String × V)} {e : String × V}
    (h : l.find? (fun x => x.1 == key) = some e) : e.1 = key := by
  have := List.find?_some h
  simpa using this

theorem sumW_find_eraseP {V : Type} (vLen : V → Nat) (key : String) :
    ∀ {l : List (String × V)} {e : String × V},
      l.find? (fun x => x.1 == key) = some e →
      sumW vLen (e :: l.eraseP (fun x => x.1 == key)) = sumW vLen l := by
  intro l
  induction l with
  | nil => intro e h; simp at h
  | cons x t ih =>
    intro e h
    by_cases hx : (x.1 == key) = true
    · have hfx : List.find? (fun x => x.1 == key) (x :: t) = some x := by
        simp [List.find?_cons, hx]
      rw [hfx] at h
      cases h
      have herase : List.eraseP (fun x => x.1 == key) (x :: t) = t := by
        simp [List.eraseP_cons, hx]
      rw [herase]
    · have hfx : List.find? (fun x => x.1 == key) (x :: t) =
          List.find? (fun x => x.1 == key) t := by
        simp [List.find?_cons, hx]
      rw [hfx] at h
      have herase : List.eraseP (fun x => x.1 == key) (x :: t) =
          x :: List.eraseP (fun x => x.1 == key) t := by
        simp [List.eraseP_cons, hx]
      rw [herase]
      have h2 := ih h
      rw [sumW_cons] at h2
      rw [sumW_cons, sumW_cons, sumW_cons]
      linarith

theorem removeOldest_maxBytes {V : Type} (vLen : V → Nat) (c : Cache V) :
    (Cache.RemoveOldest vLen c).maxBytes = c.maxBytes := by
  unfold Cache.RemoveOldest
  cases h : c.ll.getLast? <;> rfl

theorem removeOldest_ll {V : Type} (vLen : V → Nat) (c : Cache V) (hne : c.ll ≠ []) :
    (Cache.RemoveOldest vLen c).ll = c.ll.dropLast := by
  unfold Cache.RemoveOldest
  cases h : c.ll.getLast? with
  | none => rw [List.getLast?_eq_getLast c.ll hne] at h; simp at h
  | some e => rfl

theorem removeOldest_length {V : Type} (vLen : V → Nat) (c : Cache V) (hne : c.ll ≠ []) :
    (Cache.RemoveOldest vLen c).ll.length + 1 = c.ll.length := by
  rw [removeOldest_ll vLen c hne, List.length_dropLast]
  have := List.length_pos.mpr hne
  omega

theorem removeOldest_sum {V : Type} (vLen : V → Nat) (c : Cache V)
    (hs : c.nowBytes = sumW vLen c.ll) :
    (Cache.RemoveOldest vLen c).nowBytes = sumW vLen (Cache.RemoveOldest vLen c).ll := by
  unfold Cache.RemoveOldest
  cases h : c.ll.getLast? with
  | none => simpa using hs
  | some e =>
    have hne : c.ll ≠ [] := by intro he; rw [he] at h; simp at h
    have he2 : c.ll.getLast hne = e := by
      rw [List.getLast?_eq_getLast c.ll hne] at h
      exact Option.some.inj h
    have hsplit : c.ll.dropLast ++ [e] = c.ll := by
      rw [← he2]; exact List.dropLast_append_getLast hne
    have hsum : sumW vLen c.ll = sumW vLen c.ll.dropLast + weight vLen e := by
      conv_lhs => rw [← hsplit]
      rw [sumW_append, sumW_cons]
      simp [sumW]
    simp only []
    rw [hs, hsum]
    ring

theorem evictFuel_some_spec {V : Type} (vLen : V → Nat) (n : Nat) :
    ∀ (c c2 : Cache V), evictFuel vLen n c = some c2 →
      c.nowBytes = sumW vLen c.ll →
      c2.nowBytes = sumW vLen c2.ll ∧ c2.maxBytes = c.maxBytes ∧
        (c2.maxBytes = 0 ∨ c2.nowBytes ≤ c2.maxBytes) := by
  induction n with
  | zero =>
    intro c c2 h hs
    unfold evictFuel at h
    by_cases hg : c.maxBytes ≠ 0 ∧ c.maxBytes < c.nowBytes
    · rw [if_pos hg] at h; simp at h
    · rw [if_neg hg] at h
      cases h
      push_neg at hg
      refine ⟨hs, rfl, ?_⟩
      by_cases h0 : c.maxBytes = 0
      · exact Or.inl h0
      · exact Or.inr (hg h0)
  | succ n ih =>
    intro c c2 h hs
    unfold evictFuel at h
    by_cases hg : c.maxBytes ≠ 0 ∧ c.maxBytes < c.nowBytes
    · rw [if_pos hg] at h
      have h2 := ih _ c2 h (removeOldest_sum vLen c hs)
      exact ⟨h2.1, by rw [h2.2.1, removeOldest_maxBytes], h2.2.2⟩
    · rw [if_neg hg] at h
      cases h
      push_neg at hg
      refine ⟨hs, rfl, ?_⟩
      by_cases h0 : c.maxBytes = 0
      · exact Or.inl h0
      · exact Or.inr (hg h0)

theorem evictFuel_total {V : Type} (vLen : V → Nat) (n : Nat) :
    ∀ (c : Cache V), c.nowBytes = sumW vLen c.ll → 0 ≤ c.maxBytes →
      c.ll.length ≤ n → ∃ c2, evictFuel vLen n c = some c2 := by
  induction n with
  | zero =>
    intro c hs hmb hn
    have hnil : c.ll = [] := List.length_eq_zero.mp (Nat.le_zero.mp hn)
    have h0 : c.nowBytes = 0 := by rw [hs, hnil]; rfl
    refine ⟨c, ?_⟩
    unfold evictFuel
    rw [if_neg ?_]
    rintro ⟨h1, h2⟩
    rw [h0] at h2
    omega
  | succ n ih =>
    intro c hs hmb hn
    by_cases hg : c.maxBytes ≠ 0 ∧ c.maxBytes < c.nowBytes
    · have hne : c.ll ≠ [] := by
        intro hnil
        have h2 := hg.2
        rw [hs, hnil] at h2
        simp [sumW] at h2
        omega
      have hlen : (Cache.RemoveOldest vLen c).ll.length ≤ n := by
        have := removeOldest_length vLen c hne
        omega
      obtain ⟨c2, hc2⟩ := ih (Cache.RemoveOldest vLen c) (removeOldest_sum vLen c hs)
        (by rw [removeOldest_maxBytes]; exact hmb) hlen
      refine ⟨c2, ?_⟩
      unfold evictFuel
      rw [if_pos hg]
      exact hc2
    · exact ⟨c, by unfold evictFuel; rw [if_neg hg]⟩

theorem evictFuel_oversize {V : Type} (vLen : V → Nat) (n : Nat) :
    ∀ (c : Cache V), c.nowBytes = sumW vLen c.ll → 0 < c.maxBytes →
      (c.ll = [] ∨ ∃ e t, c.ll = e :: t ∧ c.maxBytes < weight vLen e) →
      c.ll.length ≤ n →
      evictFuel vLen n c = some { maxBytes := c.maxBytes, nowBytes := 0, ll := [] } := by
  induction n with
  | zero =>
    intro c hs hpos hinv hn
    have hnil : c.ll = [] := List.length_eq_zero.mp (Nat.le_zero.mp hn)
    have h0 : c.nowBytes = 0 := by rw [hs, hnil]; rfl
    unfold evictFuel
    rw [if_neg (by rintro ⟨h1, h2⟩; omega)]
    cases c
    simp_all
  | succ n ih =>
    intro c hs hpos hinv hn
    rcases hinv with hnil | ⟨e, t, hcons, hw⟩
    · have h0 : c.nowBytes = 0 := by rw [hs, hnil]; rfl
      unfold evictFuel
      rw [if_neg (by rintro ⟨h1, h2⟩; omega)]
      cases c
      simp_all
    · have hsumt : 0 ≤ sumW vLen t := sumW_nonneg vLen t
      have hnow : c.maxBytes < c.nowBytes := by
        rw [hs, hcons, sumW_cons]
        linarith
      have hg : c.maxBytes ≠ 0 ∧ c.maxBytes < c.nowBytes := ⟨by omega, hnow⟩
      unfold evictFuel
      rw [if_pos hg]
      have hne : c.ll ≠ [] := by rw [hcons]; simp
      have hll2 : (Cache.RemoveOldest vLen c).ll = c.ll.dropLast := removeOldest_ll vLen c hne
      have hmb2 := removeOldest_maxBytes vLen c
      have hinv2 : (Cache.RemoveOldest vLen c).ll = [] ∨
          ∃ e2 t2, (Cache.RemoveOldest vLen c).ll = e2 :: t2 ∧
            (Cache.RemoveOldest vLen c).maxBytes < weight vLen e2 := by
        rw [hll2, hcons, hmb2]
        cases t with
        | nil => exact Or.inl rfl
        | cons y ys =>
          right
          exact ⟨e, (y :: ys).dropLast, rfl, hw⟩
      have hlen2 : (Cache.RemoveOldest vLen c).ll.length ≤ n := by
        have := removeOldest_length vLen c hne
        omega
      have hrec := ih (Cache.RemoveOldest vLen c) (removeOldest_sum vLen c hs)
        (by rw [hmb2]; exact hpos) hinv2 hlen2
      rw [hrec, hmb2]

theorem add_some_spec {V : Type} (vLen : V → Nat) (c : Cache V) (key : String) (value : V)
    (c2 : Cache V) (h : Cache.Add vLen c key value = some c2)
    (hs : c.nowBytes = sumW vLen c.ll) :
    c2.nowBytes = sumW vLen c2.ll ∧ c2.maxBytes = c.maxBytes ∧
      (c2.maxBytes = 0 ∨ c2.nowBytes ≤ c2.maxBytes) := by
  unfold Cache.Add at h
  cases hf : c.ll.find? (fun x => x.1 == key) with
  | some e =>
    rw [hf] at h
    have h2 : evictFuel vLen (((e.1, value) :: c.ll.eraseP (fun x => x.1 == key)).length)
        { maxBytes := c.maxBytes,
          nowBytes := c.nowBytes + ((vLen value : Int) - (vLen e.2 : Int)),
          ll := (e.1, value) :: c.ll.eraseP (fun x => x.1 == key) } = some c2 := h
    have h3 := evictFuel_some_spec vLen _ _ c2 h2 (by
      show c.nowBytes + ((vLen value : Int) - (vLen e.2 : Int)) =
        sumW vLen ((e.1, value) :: c.ll.eraseP (fun x => x.1 == key))
      have h1 := sumW_find_eraseP vLen key hf
      rw [sumW_cons] at h1 ⊢
      have hwe : weight vLen e = (e.1.utf8ByteSize : Int) + (vLen e.2 : Int) := rfl
      have hwv : weight vLen (e.1, value) = (e.1.utf8ByteSize : Int) + (vLen value : Int) := rfl
      rw [hs, hwv]
      rw [hwe] at h1
      linarith)
    exact ⟨h3.1, h3.2.1, h3.2.2⟩
  | none =>
    rw [hf] at h
    have h2 : evictFuel vLen (((key, value) :: c.ll).length)
        { maxBytes := c.maxBytes,
          nowBytes := c.nowBytes + weight vLen (key, value),
          ll := (key, value) :: c.ll } = some c2 := h
    have h3 := evictFuel_some_spec vLen _ _ c2 h2 (by
      show c.nowBytes + weight vLen (key, value) = sumW vLen ((key, value) :: c.ll)
      rw [sumW_cons, hs]
      ring)
    exact ⟨h3.1, h3.2.1, h3.2.2⟩

theorem get_snd_maxBytes {V : Type} (c : Cache V) (key : String) :
    (Cache.Get c key).2.maxBytes = c.maxBytes := by
  unfold Cache.Get
  cases h : c.ll.find? (fun x => x.1 == key) <;> rfl

theorem get_snd_nowBytes {V : Type} (c : Cache V) (key : String) :
    (Cache.Get c key).2.nowBytes = c.nowBytes := by
  unfold Cache.Get
  cases h : c.ll.find? (fun x => x.1 == key) <;> rfl

theorem get_snd_sum {V : Type} (vLen : V → Nat) (c : Cache V) (key : String)
    (hs : c.nowBytes = sumW vLen c.ll) :
    (Cache.Get c key).2.nowBytes = sumW vLen (Cache.Get c key).2.ll := by
  unfold Cache.Get
  cases h : c.ll.find? (fun x => x.1 == key) with
  | none => simpa using hs
  | some e =>
    simp only []
    rw [sumW_find_eraseP vLen key h]
    exact hs

theorem runOps_inv {V : Type} (vLen : V → Nat) (ops : List (Op V)) :
    ∀ (c c2 : Cache V), runOps vLen c ops = some c2 →
      c.nowBytes = sumW vLen c.ll → (c.maxBytes ≤ 0 ∨ c.nowBytes ≤ c.maxBytes) →
      c2.nowBytes = sumW vLen c2.ll ∧ c2.maxBytes = c.maxBytes ∧
        (c2.maxBytes ≤ 0 ∨ c2.nowBytes ≤ c2.maxBytes) := by
  induction ops with
  | nil =>
    intro c c2 h hs hb
    cases h
    exact ⟨hs, rfl, hb⟩
  | cons op ops ih =>
    intro c c2 h hs hb
    cases op with
    | get k =>
      simp only [runOps] at h
      have hmb := get_snd_maxBytes c k
      have hnb := get_snd_nowBytes c k
      have h2 := ih _ c2 h (get_snd_sum vLen c k hs) (by rw [hmb, hnb]; exact hb)
      exact ⟨h2.1, by rw [h2.2.1, hmb], h2.2.2⟩
    | add k v =>
      simp only [runOps] at h
      cases ha : Cache.Add vLen c k v with
      | none => rw [ha] at h; simp at h
      | some cmid =>
        rw [ha] at h
        have hmid := add_some_spec vLen c k v cmid ha hs
        have hbmid : cmid.maxBytes ≤ 0 ∨ cmid.nowBytes ≤ cmid.maxBytes := by
          rcases hmid.2.2 with h0 | hle
          · left; omega
          · right; exact hle
        have h2 := ih cmid c2 h hmid.1 hbmid
        exact ⟨h2.1, by rw [h2.2.1, hmid.2.1], h2.2.2⟩

theorem evictFuelSpec_eq {V : Type} (vLen : V → Nat) (n : Nat) :
    ∀ (c : Cache V), 0 ≤ c.maxBytes → evictFuelSpec vLen n c = evictFuel vLen n c := by
  induction n with
  | zero =>
    intro c hmb
    unfold evictFuelSpec evictFuel
    by_cases hg : 0 < c.maxBytes ∧ c.maxBytes < c.nowBytes
    · rw [if_pos hg, if_pos ⟨by omega, hg.2⟩]
    · rw [if_neg hg, if_neg (by rintro ⟨h1, h2⟩; exact hg ⟨by omega, h2⟩)]
  | succ n ih =>
    intro c hmb
    unfold evictFuelSpec evictFuel
    by_cases hg : 0 < c.maxBytes ∧ c.maxBytes < c.nowBytes
    · rw [if_pos hg, if_pos ⟨by omega, hg.2⟩]
      exact ih (Cache.RemoveOldest vLen c) (by rw [removeOldest_maxBytes]; omega)
    · rw [if_neg hg, if_neg (by rintro ⟨h1, h2⟩; exact hg ⟨by omega, h2⟩)]

end lru

namespace lru

theorem mid_sum_present {V : Type} (vLen : V → Nat) {c : Cache V} {key : String}
    {value : V} {e : String × V}
    (hf : c.ll.find? (fun x => x.1 == key) = some e)
    (hs : c.nowBytes = sumW vLen c.ll) :
    c.nowBytes + ((vLen value : Int) - (vLen e.2 : Int)) =
      sumW vLen ((e.1, value) :: c.ll.eraseP (fun x => x.1 == key)) := by
  have h1 := sumW_find_eraseP vLen key hf
  rw [sumW_cons] at h1 ⊢
  have hwe : weight vLen e = (e.1.utf8ByteSize : Int) + (vLen e.2 : Int) := rfl
  have hwv : weight vLen (e.1, value) = (e.1.utf8ByteSize : Int) + (vLen value : Int) := rfl
  rw [hs, hwv]
  rw [hwe] at h1
  linarith

theorem mid_sum_absent {V : Type} (vLen : V → Nat) {c : Cache V} (key : String) (value : V)
    (hs : c.nowBytes = sumW vLen c.ll) :
    c.nowBytes + weight vLen (key, value) = sumW vLen ((key, value) :: c.ll) := by
  rw [sumW_cons, hs]
  ring

end lru

/-- Claim C1 (amended): for every sequence of Add and Get operations on the
LRU engine started from `New maxBytes`, after each operation that returns,
now_bytes equals the sum of len(key)+value.Len() over all resident entries,
and either max_bytes ≤ 0 or now_bytes ≤ max_bytes (the original claim's
disjunct "max_bytes == 0" fails for the negative ceilings the public
constructor admits, see the counterexample; the amendment weakens it to
"max_bytes ≤ 0"); and in the edge case where a single admitted entry's own
weight exceeds max_bytes > 0, the engine ends up empty with the new entry
evicted immediately. -/
theorem claimC1 :
    (∀ (V : Type) (vLen : V → Nat) (mb : Int) (ops : List (lru.Op V)) (c : lru.Cache V),
        lru.runOps vLen (lru.New V mb) ops = some c →
        c.nowBytes = lru.sumW vLen c.ll ∧ (c.maxBytes ≤ 0 ∨ c.nowBytes ≤ c.maxBytes)) ∧
    (∀ (V : Type) (vLen : V → Nat) (c : lru.Cache V) (key : String) (value : V),
        c.nowBytes = lru.sumW vLen c.ll → 0 < c.maxBytes →
        c.maxBytes < lru.weight vLen (key, value) →
        lru.Cache.Add vLen c key value =
          some { maxBytes := c.maxBytes, nowBytes := 0, ll := [] }) := by
  constructor
  · intro V vLen mb ops c h
    have hb : (lru.New V mb).maxBytes ≤ 0 ∨ (lru.New V mb).nowBytes ≤ (lru.New V mb).maxBytes := by
      rcases le_total mb 0 with hle | hge
      · exact Or.inl hle
      · exact Or.inr hge
    have h2 := lru.runOps_inv vLen ops (lru.New V mb) c h rfl hb
    exact ⟨h2.1, h2.2.2⟩
  · intro V vLen c key value hs hpos hov
    unfold lru.Cache.Add
    cases hf : c.ll.find? (fun x => x.1 == key) with
    | some e =>
      have hek : e.1 = key := lru.find?_key_eq hf
      have hov2 : c.maxBytes < lru.weight vLen (e.1, value) := by rw [hek]; exact hov
      show lru.evictLoop vLen
          { maxBytes := c.maxBytes,
            nowBytes := c.nowBytes + ((vLen value : Int) - (vLen e.2 : Int)),
            ll := (e.1, value) :: c.ll.eraseP (fun x => x.1 == key) } =
        some { maxBytes := c.maxBytes, nowBytes := 0, ll := [] }
      exact lru.evictFuel_oversize vLen _
        { maxBytes := c.maxBytes,
          nowBytes := c.nowBytes + ((vLen value : Int) - (vLen e.2 : Int)),
          ll := (e.1, value) :: c.ll.eraseP (fun x => x.1 == key) }
        (lru.mid_sum_present vLen hf hs) hpos
        (Or.inr ⟨(e.1, value), c.ll.eraseP (fun x => x.1 == key), rfl, hov2⟩)
        (le_refl _)
    | none =>
      show lru.evictLoop vLen
          { maxBytes := c.maxBytes,
            nowBytes := c.nowBytes + lru.weight vLen (key, value),
            ll := (key, value) :: c.ll } =
        some { maxBytes := c.maxBytes, nowBytes := 0, ll := [] }
      exact lru.evictFuel_oversize vLen _
        { maxBytes := c.maxBytes,
          nowBytes := c.nowBytes + lru.weight vLen (key, value),
          ll := (key, value) :: c.ll }
        (lru.mid_sum_absent vLen key value hs) hpos
        (Or.inr ⟨(key, value), c.ll, rfl, hov⟩)
        (le_refl _)

/-- Witness for C1: the invariant is read off a concrete two-operation trace,
and the oversize edge at a concrete admission whose weight 6 exceeds the
ceiling 5. -/
theorem claimC1_witness :
    ((⟨10, 3, [("a", ⟨[1, 2]⟩)]⟩ : lru.Cache geecache.ByteView).nowBytes =
        lru.sumW geecache.ByteView.Len
          (⟨10, 3, [("a", ⟨[1, 2]⟩)]⟩ : lru.Cache geecache.ByteView).ll ∧
      ((⟨10, 3, [("a", ⟨[1, 2]⟩)]⟩ : lru.Cache geecache.ByteView).maxBytes ≤ 0 ∨
        (⟨10, 3, [("a", ⟨[1, 2]⟩)]⟩ : lru.Cache geecache.ByteView).nowBytes ≤
          (⟨10, 3, [("a", ⟨[1, 2]⟩)]⟩ : lru.Cache geecache.ByteView).maxBytes)) ∧
    lru.Cache.Add geecache.ByteView.Len ⟨5, 0, []⟩ "abc" ⟨[1, 2, 3]⟩ =
      some { maxBytes := 5, nowBytes := 0, ll := [] } :=
  ⟨claimC1.1 geecache.ByteView geecache.ByteView.Len 10
      [lru.Op.add "a" ⟨[1, 2]⟩, lru.Op.get "a"] ⟨10, 3, [("a", ⟨[1, 2]⟩)]⟩ (by decide),
   claimC1.2 geecache.ByteView geecache.ByteView.Len ⟨5, 0, []⟩ "abc" ⟨[1, 2, 3]⟩
      (by decide) (by decide) (by decide)⟩

/-- Counterexample to C1 as stated: the engine built by `New(-1)` violates
the claimed disjunct "max_bytes == 0 ∨ now_bytes ≤ max_bytes" immediately
after a Get operation returns. -/
theorem claimC1_counterexample :
    lru.runOps geecache.ByteView.Len (lru.New geecache.ByteView (-1)) [lru.Op.get "a"] =
      some { maxBytes := -1, nowBytes := 0, ll := [] } ∧
    ¬(((-1 : Int) = 0) ∨ ((0 : Int) ≤ (-1 : Int))) :=
  ⟨by decide, by decide⟩

/-- Claim C2 (amended): Cache.Add replaces in place / inserts at front with
exactly the stated now_bytes adjustments and then repeatedly evicts the tail,
but the eviction loop's guard in the source is max_bytes ≠ 0 ∧ now_bytes >
max_bytes rather than the claim's max_bytes > 0 ∧ now_bytes > max_bytes; the
two agree whenever max_bytes ≥ 0 (and differ on negative ceilings, see the
counterexample). -/
theorem claimC2 (V : Type) (vLen : V → Nat) (c : lru.Cache V) (key : String) (value : V)
    (hmb : 0 ≤ c.maxBytes) :
    lru.Cache.Add vLen c key value = lru.Cache.AddSpec vLen c key value := by
  unfold lru.Cache.Add lru.Cache.AddSpec
  cases hf : c.ll.find? (fun x => x.1 == key) with
  | some e =>
    show lru.evictLoop vLen
        { maxBytes := c.maxBytes,
          nowBytes := c.nowBytes + ((vLen value : Int) - (vLen e.2 : Int)),
          ll := (e.1, value) :: c.ll.eraseP (fun x => x.1 == key) } =
      lru.evictFuelSpec vLen
        ((e.1, value) :: c.ll.eraseP (fun x => x.1 == key)).length
        { maxBytes := c.maxBytes,
          nowBytes := c.nowBytes + ((vLen value : Int) - (vLen e.2 : Int)),
          ll := (e.1, value) :: c.ll.eraseP (fun x => x.1 == key) }
    exact (lru.evictFuelSpec_eq vLen _
      { maxBytes := c.maxBytes,
        nowBytes := c.nowBytes + ((vLen value : Int) - (vLen e.2 : Int)),
        ll := (e.1, value) :: c.ll.eraseP (fun x => x.1 == key) } hmb).symm
  | none =>
    show lru.evictLoop vLen
        { maxBytes := c.maxBytes,
          nowBytes := c.nowBytes + lru.weight vLen (key, value),
          ll := (key, value) :: c.ll } =
      lru.evictFuelSpec vLen ((key, value) :: c.ll).length
        { maxBytes := c.maxBytes,
          nowBytes := c.nowBytes + lru.weight vLen (key, value),
          ll := (key, value) :: c.ll }
    exact (lru.evictFuelSpec_eq vLen _
      { maxBytes := c.maxBytes,
        nowBytes := c.nowBytes + lru.weight vLen (key, value),
        ll := (key, value) :: c.ll } hmb).symm

/-- Witness for C2: the source Add and the claim's description agree at a
concrete state with a nonnegative ceiling. -/
theorem claimC2_witness :
    (0 : Int) ≤ (⟨10, 0, []⟩ : lru.Cache geecache.ByteView).maxBytes ∧
    lru.Cache.Add geecache.ByteView.Len ⟨10, 0, []⟩ "a" ⟨[1]⟩ =
      lru.Cache.AddSpec geecache.ByteView.Len ⟨10, 0, []⟩ "a" ⟨[1]⟩ :=
  ⟨by decide,
   claimC2 geecache.ByteView geecache.ByteView.Len ⟨10, 0, []⟩ "a" ⟨[1]⟩ (by decide)⟩

/-- Counterexample to C2 as stated: at max_bytes = -1 the loop guard the
claim states (max_bytes > 0 ∧ ...) never fires, so the described Add returns
with the new entry resident, while the source guard (max_bytes != 0 ∧ ...)
never lets the loop exit once the list is empty: Add diverges. -/
theorem claimC2_counterexample :
    lru.Cache.Add geecache.ByteView.Len ⟨-1, 0, []⟩ "a" ⟨[]⟩ = none ∧
    lru.Cache.AddSpec geecache.ByteView.Len ⟨-1, 0, []⟩ "a" ⟨[]⟩ =
      some { maxBytes := -1, nowBytes := 1, ll := [("a", ⟨[]⟩)] } ∧
    lru.Cache.Add geecache.ByteView.Len ⟨-1, 0, []⟩ "a" ⟨[]⟩ ≠
      lru.Cache.AddSpec geecache.ByteView.Len ⟨-1, 0, []⟩ "a" ⟨[]⟩ :=
  ⟨by decide, by decide, by decide⟩

/-- Claim C8 (amended): on every state whose now_bytes is the sum of resident
entry weights and whose max_bytes is nonnegative, Cache.Add terminates (each
loop iteration removes one node, and on the empty list now_bytes is 0, so the
guard max_bytes != 0 && max_bytes < now_bytes fails); for negative max_bytes
the guard stays true on the empty list and Add diverges, see the
counterexample. -/
theorem claimC8 (V : Type) (vLen : V → Nat) (c : lru.Cache V) (key : String) (value : V)
    (hs : c.nowBytes = lru.sumW vLen c.ll) (hmb : 0 ≤ c.maxBytes) :
    ∃ c2, lru.Cache.Add vLen c key value = some c2 := by
  unfold lru.Cache.Add
  cases hf : c.ll.find? (fun x => x.1 == key) with
  | some e =>
    show ∃ c2, lru.evictLoop vLen
        { maxBytes := c.maxBytes,
          nowBytes := c.nowBytes + ((vLen value : Int) - (vLen e.2 : Int)),
          ll := (e.1, value) :: c.ll.eraseP (fun x => x.1 == key) } = some c2
    exact lru.evictFuel_total vLen _
      { maxBytes := c.maxBytes,
        nowBytes := c.nowBytes + ((vLen value : Int) - (vLen e.2 : Int)),
        ll := (e.1, value) :: c.ll.eraseP (fun x => x.1 == key) }
      (lru.mid_sum_present vLen hf hs) hmb (le_refl _)
  | none =>
    show ∃ c2, lru.evictLoop vLen
        { maxBytes := c.maxBytes,
          nowBytes := c.nowBytes + lru.weight vLen (key, value),
          ll := (key, value) :: c.ll } = some c2
    exact lru.evictFuel_total vLen _
      { maxBytes := c.maxBytes,
        nowBytes := c.nowBytes + lru.weight vLen (key, value),
        ll := (key, value) :: c.ll }
      (lru.mid_sum_absent vLen key value hs) hmb (le_refl _)

/-- Witness for C8: termination at a concrete consistent state. -/
theorem claimC8_witness :
    ((⟨20, 2, [("a", ⟨[1]⟩)]⟩ : lru.Cache geecache.ByteView).nowBytes =
        lru.sumW geecache.ByteView.Len
          (⟨20, 2, [("a", ⟨[1]⟩)]⟩ : lru.Cache geecache.ByteView).ll) ∧
    (0 : Int) ≤ (⟨20, 2, [("a", ⟨[1]⟩)]⟩ : lru.Cache geecache.ByteView).maxBytes ∧
    ∃ c2, lru.Cache.Add geecache.ByteView.Len ⟨20, 2, [("a", ⟨[1]⟩)]⟩ "bc" ⟨[1, 2]⟩ =
      some c2 :=
  ⟨by decide, by decide,
   claimC8 geecache.ByteView geecache.ByteView.Len ⟨20, 2, [("a", ⟨[1]⟩)]⟩ "bc" ⟨[1, 2]⟩
     (by decide) (by decide)⟩

/-- Counterexample to C8 as stated: the state with max_bytes = -1 satisfies
the claim's precondition (now_bytes = 0 is the sum over its zero resident
entries), yet Add never returns: the inserted entry is evicted and the guard
max_bytes != 0 && max_bytes < now_bytes stays true on the empty list. -/
theorem claimC8_counterexample :
    (⟨-1, 0, []⟩ : lru.Cache geecache.ByteView).nowBytes =
      lru.sumW geecache.ByteView.Len (⟨-1, 0, []⟩ : lru.Cache geecache.ByteView).ll ∧
    lru.Cache.Add geecache.ByteView.Len ⟨-1, 0, []⟩ "b" ⟨[7]⟩ = none :=
  ⟨by decide, by decide⟩

namespace lru

theorem get_miss_eq {V : Type} (c : Cache V) (key : String)
    (h : (Cache.Get c key).1 = none) : Cache.Get c key = (none, c) := by
  unfold Cache.Get at h ⊢
  cases hf : c.ll.find? (fun x => x.1 == key) with
  | some e => rw [hf] at h; simp at h
  | none => rfl

end lru

namespace geecache

theorem cacheGet_miss (c : cache) (key : String)
    (h : (cache.get c key).1 = none) : cache.get c key = (none, c) := by
  obtain ⟨cb, lr⟩ := c
  cases lr with
  | none => rfl
  | some eng =>
    have h2 : (lru.Cache.Get eng key).1 = none := h
    have h3 : lru.Cache.Get eng key = (none, eng) := lru.get_miss_eq eng key h2
    show ((lru.Cache.Get eng key).1,
        ({ cacheBytes := cb, lru := some (lru.Cache.Get eng key).2 } : cache)) =
      (none, ⟨cb, some eng⟩)
    rw [h3]

end geecache

/-- Claim C3: with a peer picker installed, on a local miss where the remote
fetch succeeds, Group.Get returns the peer client's body bytes, the group
(hence its local cache) is unchanged, and a subsequent Group.Get of the same
key again misses locally and routes through the peer picker, returning the
same remote bytes. -/
theorem claimC3 (g : geecache.Group) (pp : geecache.PeerPicker) (peer : geecache.PeerClient)
    (key : String) (bs : List Nat)
    (hkey : key ≠ "")
    (hmiss : (geecache.cache.get g.mainCache key).1 = none)
    (hpeers : g.peers = some pp)
    (hpick : pp.PickPeer key = some peer)
    (hfetch : peer.Get g.name key = (bs, none)) :
    geecache.Group.Get g key = some (⟨bs⟩, none, g) ∧
    ∀ g2, geecache.Group.Get g key = some (⟨bs⟩, none, g2) →
      geecache.Group.Get g2 key = some (⟨bs⟩, none, g2) := by
  have hmain : geecache.Group.Get g key = some (⟨bs⟩, none, g) := by
    unfold geecache.Group.Get
    rw [if_neg hkey, geecache.cacheGet_miss g.mainCache key hmiss]
    show geecache.Group.load g key = some (⟨bs⟩, none, g)
    unfold geecache.Group.load
    simp only [hpeers, hpick, geecache.Group.getFromPeer, hfetch]
  refine ⟨hmain, ?_⟩
  intro g2 h2
  rw [hmain] at h2
  simp only [Option.some.injEq, Prod.mk.injEq, true_and] at h2
  rw [← h2]
  exact hmain

/-- Witness for C3: a concrete group whose loader always fails but whose peer
returns the byte 86; Group.Get returns that byte and leaves the group
unchanged. -/
theorem claimC3_witness :
    geecache.Group.Get
      { name := "scores",
        getter := fun _ => ([], some "loader error"),
        mainCache := { cacheBytes := 16, lru := none },
        peers := some { PickPeer := fun _ => some { Get := fun _ _ => ([86], none) } } } "x" =
      some (⟨[86]⟩, none,
        { name := "scores",
          getter := fun _ => ([], some "loader error"),
          mainCache := { cacheBytes := 16, lru := none },
          peers := some { PickPeer := fun _ => some { Get := fun _ _ => ([86], none) } } }) :=
  (claimC3 _ _ _ "x" [86] (by decide) (by rfl) (by rfl) (by rfl) (by rfl)).1

/-- Claim C4: when the picked remote peer fails with any error, Group.Get
falls back to the local loader — on loader success it admits a copy of the
loader's bytes under the key and returns them; when the loader itself fails,
that error is propagated unchanged. -/
theorem claimC4 (g : geecache.Group) (pp : geecache.PeerPicker) (peer : geecache.PeerClient)
    (key : String) (e : String)
    (hkey : key ≠ "")
    (hmiss : (geecache.cache.get g.mainCache key).1 = none)
    (hpeers : g.peers = some pp)
    (hpick : pp.PickPeer key = some peer)
    (hfail : (peer.Get g.name key).2 = some e) :
    (∀ bs, g.getter key = (bs, none) →
        geecache.Group.Get g key = (geecache.cache.add g.mainCache key ⟨bs⟩).map
          (fun mc => ((⟨bs⟩ : geecache.ByteView), none, { g with mainCache := mc }))) ∧
    (∀ bs2 e2, g.getter key = (bs2, some e2) →
        geecache.Group.Get g key = some (⟨[]⟩, some e2, g)) := by
  obtain ⟨bsP, hbs⟩ : ∃ bsP, peer.Get g.name key = (bsP, some e) :=
    ⟨(peer.Get g.name key).1, by rw [← hfail]⟩
  have hload : geecache.Group.Get g key = geecache.Group.getLocally g key := by
    unfold geecache.Group.Get
    rw [if_neg hkey, geecache.cacheGet_miss g.mainCache key hmiss]
    show geecache.Group.load g key = geecache.Group.getLocally g key
    unfold geecache.Group.load
    simp only [hpeers, hpick, geecache.Group.getFromPeer, hbs]
  constructor
  · intro bs hget
    rw [hload]
    unfold geecache.Group.getLocally
    rw [hget]
    show ((geecache.cache.add g.mainCache key ⟨geecache.cloneBytes bs⟩).map
        (fun mc => ({ g with mainCache := mc } : geecache.Group))).map
        (fun g2 => ((⟨geecache.cloneBytes bs⟩ : geecache.ByteView), none, g2)) =
      (geecache.cache.add g.mainCache key ⟨bs⟩).map
        (fun mc => ((⟨bs⟩ : geecache.ByteView), none, { g with mainCache := mc }))
    rw [Option.map_map]
    rfl
  · intro bs2 e2 hget
    rw [hload]
    unfold geecache.Group.getLocally
    rw [hget]

/-- Witness for C4: a concrete group whose peer always fails; the loader's
bytes are returned and admitted (first conjunct of the claim theorem). -/
theorem claimC4_witness :
    geecache.Group.Get
      { name := "info",
        getter := fun _ => ([9, 9], none),
        mainCache := { cacheBytes := 32, lru := none },
        peers := some { PickPeer := fun _ => some { Get := fun _ _ => ([], some "peer down") } } }
      "x" =
      (geecache.cache.add { cacheBytes := 32, lru := none } "x" ⟨[9, 9]⟩).map
        (fun mc => ((⟨[9, 9]⟩ : geecache.ByteView), none,
          { name := "info",
            getter := fun _ => ([9, 9], none),
            mainCache := mc,
            peers := some
              { PickPeer := fun _ => some { Get := fun _ _ => ([], some "peer down") } } })) :=
  (claimC4 _ _ _ "x" "peer down" (by decide) (by rfl) (by rfl) (by rfl) (by rfl)).1 [9, 9] rfl

/-- Claim C9: on a non-empty key that misses the local cache, whenever the
load path reaches the local loader (no picker, no peer selected, or the peer
fetch failed) and the loader errors, Group.Get returns exactly that error
with the zero ByteView and the group — in particular its local cache — is
completely unchanged. -/
theorem claimC9 (g : geecache.Group) (key : String) (e : String) (bs : List Nat)
    (hkey : key ≠ "")
    (hmiss : (geecache.cache.get g.mainCache key).1 = none)
    (hget : g.getter key = (bs, some e))
    (hpath : g.peers = none ∨
      (∃ pp, g.peers = some pp ∧ pp.PickPeer key = none) ∨
      (∃ pp peer e2, g.peers = some pp ∧ pp.PickPeer key = some peer ∧
        (peer.Get g.name key).2 = some e2)) :
    geecache.Group.Get g key = some (⟨[]⟩, some e, g) := by
  have hlocal : geecache.Group.getLocally g key = some (⟨[]⟩, some e, g) := by
    unfold geecache.Group.getLocally
    rw [hget]
  have hstart : geecache.Group.Get g key = geecache.Group.load g key := by
    unfold geecache.Group.Get
    rw [if_neg hkey, geecache.cacheGet_miss g.mainCache key hmiss]
  rw [hstart]
  unfold geecache.Group.load
  rcases hpath with hp | ⟨pp, hpp, hpick⟩ | ⟨pp, peer, e2, hpp, hpick, hfail⟩
  · simp only [hp]
    exact hlocal
  · simp only [hpp, hpick]
    exact hlocal
  · obtain ⟨bsP, hbs⟩ : ∃ bsP, peer.Get g.name key = (bsP, some e2) :=
      ⟨(peer.Get g.name key).1, by rw [← hfail]⟩
    simp only [hpp, hpick, geecache.Group.getFromPeer, hbs]
    exact hlocal

/-- Witness for C9: a concrete group with no peers whose loader fails; the
error comes back and the group is unchanged. -/
theorem claimC9_witness :
    geecache.Group.Get
      { name := "courses",
        getter := fun _ => ([], some "no such key"),
        mainCache := { cacheBytes := 8, lru := none },
        peers := none } "k" =
      some (⟨[]⟩, some "no such key",
        { name := "courses",
          getter := fun _ => ([], some "no such key"),
          mainCache := { cacheBytes := 8, lru := none },
          peers := none }) :=
  claimC9 _ "k" "no such key" [] (by decide) (by rfl) (by rfl) (Or.inl (by rfl))

/-- Claim C5: consistenthash Map.Get returns the empty string on an empty
ring; otherwise it computes h = hash_fn(key), finds the smallest index i with
ring[i] ≥ h, wraps i to i mod len(ring) exactly when no such index exists,
and returns owner_of_hash[ring[i]] — i.e. Map.Get coincides with the claim's
description at every ring state. -/
theorem claimC5 (m : consistenthash.Map) (key : String) :
    consistenthash.Map.Get m key = consistenthash.Map.GetSpec m key := by
  simp only [consistenthash.Map.Get, consistenthash.Map.GetSpec]
  by_cases hnil : m.keys = []
  · simp [hnil]
  · have hlen0 : ¬(m.keys.length = 0) := fun h => hnil (List.length_eq_zero.mp h)
    rw [if_neg hlen0, if_neg hnil]
    by_cases hfound : m.keys.findIdx (fun x => m.hash key ≤ x) = m.keys.length
    · rw [if_pos hfound]
    · rw [if_neg hfound]
      have hlt : m.keys.findIdx (fun x => m.hash key ≤ x) < m.keys.length :=
        lt_of_le_of_ne (List.findIdx_le_length _) hfound
      rw [Nat.mod_eq_of_lt hlt]

namespace consistenthash

theorem searchInts_lt_length {l : List Nat} {h : Nat} (hm : h ∈ l) :
    searchInts l h < l.length :=
  List.findIdx_lt_length_of_exists ⟨h, hm, by simp⟩

theorem eraseIdx_searchInts {l : List Nat} (hs : List.Sorted (· ≤ ·) l) {h : Nat}
    (hm : h ∈ l) : l.eraseIdx (searchInts l h) = l.erase h := by
  induction l with
  | nil => simp at hm
  | cons x t ih =>
    by_cases hx : h ≤ x
    · have hfi : searchInts (x :: t) h = 0 := by
        simp [searchInts, List.findIdx_cons, hx]
      have hxh : x = h := by
        rcases List.mem_cons.mp hm with h1 | h1
        · omega
        · have := (List.sorted_cons.mp hs).1 h h1
          omega
      rw [hfi, List.eraseIdx_cons_zero, hxh, List.erase_cons_head]
    · have hfi : searchInts (x :: t) h = (searchInts t h) + 1 := by
        simp [searchInts, List.findIdx_cons, hx]
      have hht : h ∈ t := by
        rcases List.mem_cons.mp hm with h1 | h1
        · omega
        · exact h1
      have hxne : x ≠ h := by omega
      rw [hfi, List.eraseIdx_cons_succ, List.erase_cons_tail,
        ih (List.sorted_cons.mp hs).2 hht]
      simp [hxne]

theorem removeLoop_spec : ∀ (hs : List Nat) (m : Map),
    List.Sorted (· ≤ ·) m.keys → hs.Nodup → (∀ h ∈ hs, h ∈ m.keys) →
    ∃ m2, removeLoop m hs = some m2 ∧
      m2.keys = m.keys.diff hs ∧
      m2.hashMap = deleteAll m.hashMap hs ∧
      m2.replicas = m.replicas ∧ m2.hash = m.hash := by
  intro hs
  induction hs with
  | nil =>
    intro m hsort hnd hmem
    exact ⟨m, rfl, by simp [List.diff_nil], rfl, rfl, rfl⟩
  | cons h t ih =>
    intro m hsort hnd hmem
    have hm : h ∈ m.keys := hmem h (List.mem_cons_self h t)
    have hlt : searchInts m.keys h < m.keys.length := searchInts_lt_length hm
    have hstep : removeStep m h =
        some { m with keys := m.keys.erase h, hashMap := mapDelete m.hashMap h } := by
      unfold removeStep
      simp only [if_pos hlt, eraseIdx_searchInts hsort hm]
    have hsort2 : List.Sorted (· ≤ ·) (m.keys.erase h) :=
      List.Pairwise.sublist (List.erase_sublist h m.keys) hsort
    have hnd2 : t.Nodup := (List.nodup_cons.mp hnd).2
    have hnotin : h ∉ t := (List.nodup_cons.mp hnd).1
    have hmem2 : ∀ h2 ∈ t, h2 ∈ m.keys.erase h := by
      intro h2 hh2
      have hne : h2 ≠ h := by intro he; rw [he] at hh2; exact hnotin hh2
      exact (List.mem_erase_of_ne hne).mpr (hmem h2 (List.mem_cons_of_mem h hh2))
    obtain ⟨m2, hrun, hk, hh, hr, hha⟩ :=
      ih { m with keys := m.keys.erase h, hashMap := mapDelete m.hashMap h }
        hsort2 hnd2 hmem2
    refine ⟨m2, ?_, ?_, hh, hr, hha⟩
    · unfold removeLoop
      rw [hstep]
      exact hrun
    · rw [hk, List.diff_cons]

theorem writeAll_apply (key : String) : ∀ (hs : List Nat) (f : Nat → Option String) (x : Nat),
    writeAll f hs key x = if x ∈ hs then some key else f x := by
  intro hs
  induction hs with
  | nil => intro f x; simp [writeAll]
  | cons h t ih =>
    intro f x
    have hstep : writeAll f (h :: t) key = writeAll (mapInsert f h key) t key := rfl
    rw [hstep, ih]
    by_cases hxt : x ∈ t
    · simp [hxt]
    · by_cases hxh : x = h
      · simp [hxt, hxh, mapInsert]
      · simp [hxt, hxh, mapInsert]

theorem deleteAll_apply : ∀ (hs : List Nat) (f : Nat → Option String) (x : Nat),
    deleteAll f hs x = if x ∈ hs then none else f x := by
  intro hs
  induction hs with
  | nil => intro f x; simp [deleteAll]
  | cons h t ih =>
    intro f x
    have hstep : deleteAll f (h :: t) = deleteAll (mapDelete f h) t := rfl
    rw [hstep, ih]
    by_cases hxt : x ∈ t
    · simp [hxt]
    · by_cases hxh : x = h
      · simp [hxt, hxh, mapDelete]
      · simp [hxt, hxh, mapDelete]

theorem addFold_spec (p : String) : ∀ (is : List Nat) (a : Map),
    is.foldl (fun a i =>
      { a with
        keys := a.keys ++ [a.hash (toString i ++ p)],
        hashMap := mapInsert a.hashMap (a.hash (toString i ++ p)) p }) a =
    { hash := a.hash, replicas := a.replicas,
      keys := a.keys ++ is.map (fun i => a.hash (toString i ++ p)),
      hashMap := writeAll a.hashMap (is.map (fun i => a.hash (toString i ++ p))) p } := by
  intro is
  induction is with
  | nil =>
    intro a
    simp [writeAll]
  | cons i t ih =>
    intro a
    rw [List.foldl_cons, ih]
    simp only [List.map_cons]
    congr 1
    all_goals simp

theorem add_single (m : Map) (p : String) :
    Map.Add m [p] =
      { hash := m.hash, replicas := m.replicas,
        keys := sortInts (m.keys ++ vhashes m p),
        hashMap := writeAll m.hashMap (vhashes m p) p } := by
  unfold Map.Add
  simp only [List.foldl_cons, List.foldl_nil]
  rw [addFold_spec p (List.range m.replicas) m]
  rfl

theorem append_diff_self : ∀ (hs : List Nat) (l : List Nat),
    (∀ h ∈ hs, h ∉ l) → hs.Nodup → (l ++ hs).diff hs = l := by
  intro hs
  induction hs with
  | nil => intro l _ _; simp
  | cons h t ih =>
    intro l hnotin hnd
    rw [List.diff_cons, List.erase_append_right _ (hnotin h (List.mem_cons_self h t)),
      List.erase_cons_head]
    exact ih l (fun h2 hh2 => hnotin h2 (List.mem_cons_of_mem h hh2))
      (List.nodup_cons.mp hnd).2

end consistenthash

/-- Claim C6: on a ring state where the peer's virtual-node hashes collide
with nothing (they are pairwise distinct, absent from the ring and unbound in
owner_of_hash), Add(p) followed by Remove(p) restores the prior state: the
ring is a permutation of the original hash list (hence set-equal) and
owner_of_hash equals the original map; replicas and the hash function are
untouched. -/
theorem claimC6 (m : consistenthash.Map) (p : String)
    (hnd : (consistenthash.vhashes m p).Nodup)
    (hkeys : ∀ h ∈ consistenthash.vhashes m p, h ∉ m.keys)
    (hmap : ∀ h ∈ consistenthash.vhashes m p, m.hashMap h = none) :
    ∃ m2, consistenthash.Map.Remove (consistenthash.Map.Add m [p]) p = some m2 ∧
      List.Perm m2.keys m.keys ∧
      m2.hashMap = m.hashMap ∧
      m2.replicas = m.replicas ∧ m2.hash = m.hash := by
  have hadd := consistenthash.add_single m p
  have hvh2 : consistenthash.vhashes (consistenthash.Map.Add m [p]) p =
      consistenthash.vhashes m p := by
    rw [hadd]
    rfl
  unfold consistenthash.Map.Remove
  rw [hvh2, hadd]
  have hsorted : List.Sorted (· ≤ ·)
      (consistenthash.sortInts (m.keys ++ consistenthash.vhashes m p)) :=
    List.sorted_insertionSort _ _
  have hperm : List.Perm (consistenthash.sortInts (m.keys ++ consistenthash.vhashes m p))
      (m.keys ++ consistenthash.vhashes m p) :=
    List.perm_insertionSort _ _
  have hmem : ∀ h ∈ consistenthash.vhashes m p,
      h ∈ consistenthash.sortInts (m.keys ++ consistenthash.vhashes m p) := by
    intro h hh
    exact hperm.mem_iff.mpr (List.mem_append.mpr (Or.inr hh))
  obtain ⟨m2, hrun, hk, hh, hr, hha⟩ :=
    consistenthash.removeLoop_spec (consistenthash.vhashes m p)
      { hash := m.hash, replicas := m.replicas,
        keys := consistenthash.sortInts (m.keys ++ consistenthash.vhashes m p),
        hashMap := consistenthash.writeAll m.hashMap (consistenthash.vhashes m p) p }
      hsorted hnd hmem
  refine ⟨m2, hrun, ?_, ?_, hr, hha⟩
  · rw [hk]
    have h1 : List.Perm
        ((consistenthash.sortInts (m.keys ++ consistenthash.vhashes m p)).diff
          (consistenthash.vhashes m p))
        ((m.keys ++ consistenthash.vhashes m p).diff (consistenthash.vhashes m p)) :=
      List.Perm.diff_right _ hperm
    have h2 : (m.keys ++ consistenthash.vhashes m p).diff (consistenthash.vhashes m p) =
        m.keys :=
      consistenthash.append_diff_self (consistenthash.vhashes m p) m.keys hkeys hnd
    rw [h2] at h1
    exact h1
  · rw [hh]
    funext x
    rw [consistenthash.deleteAll_apply]
    by_cases hx : x ∈ consistenthash.vhashes m p
    · rw [if_pos hx, (hmap x hx).symm]
    · rw [if_neg hx]
      show consistenthash.writeAll m.hashMap (consistenthash.vhashes m p) p x = m.hashMap x
      rw [consistenthash.writeAll_apply, if_neg hx]

/-- Witness for C6: a concrete two-replica ring with an injective toy hash;
adding "p" and removing it again restores the empty ring and the empty
owner map. -/
theorem claimC6_witness :
    ((consistenthash.vhashes
        { hash := fun s => (s.data.map Char.toNat).sum, replicas := 2, keys := [],
          hashMap := fun _ => none } "p").Nodup) ∧
    ∃ m2, consistenthash.Map.Remove
        (consistenthash.Map.Add
          { hash := fun s => (s.data.map Char.toNat).sum, replicas := 2, keys := [],
            hashMap := fun _ => none } ["p"]) "p" = some m2 ∧
      List.Perm m2.keys [] ∧
      m2.hashMap = (fun _ => none) ∧
      m2.replicas = 2 ∧ m2.hash = (fun s => (s.data.map Char.toNat).sum) :=
  ⟨by decide,
   claimC6
     { hash := fun s => (s.data.map Char.toNat).sum, replicas := 2, keys := [],
       hashMap := fun _ => none } "p"
     (by decide) (by intro h _; simp) (by intro h _; rfl)⟩

/-- Claim C7 (amended): for every request whose path starts with basePath,
the server splits the remainder on the first slash; it responds 400 "bad
request" exactly when the remainder contains no slash (fewer than two
segments) — an empty group or key segment is not rejected with 400 but
proceeds to the group lookup — and it responds 404 with body
"no such group: <name>" whenever the split produced a (possibly empty) name
with no registered group. -/
theorem claimC7 (groups : List (String × geecache.Group)) (basePath path : String)
    (hpre : basePath.data.isPrefixOf path.data = true) :
    (geecache.splitFirstSlash (path.data.drop basePath.data.length) = none →
      geecache.ServeHTTP groups basePath path =
        geecache.ServeResult.response 400 (geecache.Body.text "bad request") groups) ∧
    (∀ gname k, geecache.splitFirstSlash (path.data.drop basePath.data.length) =
        some (gname, k) →
      geecache.GetGroup groups (String.mk gname) = none →
      geecache.ServeHTTP groups basePath path =
        geecache.ServeResult.response 404
          (geecache.Body.text ("no such group: " ++ String.mk gname)) groups) := by
  constructor
  · intro hsplit
    unfold geecache.ServeHTTP
    rw [if_pos hpre, hsplit]
  · intro gname k hsplit hgroup
    unfold geecache.ServeHTTP
    rw [if_pos hpre, hsplit]
    simp only [hgroup]

/-- Witness for C7: a slashless remainder is a 400 and an unregistered group
is a 404 with the stated body, at concrete requests. -/
theorem claimC7_witness :
    geecache.ServeHTTP [] "/_geecache/" "/_geecache/nokey" =
      geecache.ServeResult.response 400 (geecache.Body.text "bad request") [] ∧
    geecache.ServeHTTP [] "/_geecache/" "/_geecache/gg/kk" =
      geecache.ServeResult.response 404
        (geecache.Body.text ("no such group: " ++ String.mk ['g', 'g'])) [] :=
  ⟨(claimC7 [] "/_geecache/" "/_geecache/nokey" (by decide)).1 (by decide),
   (claimC7 [] "/_geecache/" "/_geecache/gg/kk" (by decide)).2 ['g', 'g'] ['k', 'k']
     (by decide) rfl⟩

/-- Counterexample to C7 as stated: the request path "/_geecache/g/" has an
empty key segment, yet the server does not answer 400 — SplitN returns the
two parts ("g", "") and the request proceeds to the group lookup, here a
404. -/
theorem claimC7_counterexample :
    geecache.ServeHTTP [] "/_geecache/" "/_geecache/g/" =
      geecache.ServeResult.response 404 (geecache.Body.text "no such group: g") [] ∧
    ∀ b gs, geecache.ServeHTTP [] "/_geecache/" "/_geecache/g/" ≠
      geecache.ServeResult.response 400 b gs := by
  have h : geecache.ServeHTTP [] "/_geecache/" "/_geecache/g/" =
      geecache.ServeResult.response 404 (geecache.Body.text "no such group: g") [] := rfl
  refine ⟨h, ?_⟩
  intro b gs hbad
  rw [h] at hbad
  injection hbad with h1 h2 h3
  exact absurd h1 (by decide)
